import Mathlib

/-
Formal model of the fire_areas repository (fire_utils.py, fire_areas.py,
QGIS_WFMonitoring.py): the wildfire detection and tracking pipeline.
Python floats are modelled as exact rationals, pandas frames as lists of
typed records, and the shapely geometry library as an abstract geometry
interface.  Each source function keeps its name where Lean allows it.
-/

/-! ## Anomaly Detector call interface
fire_utils.py:142 defines
detect_areas(rgb, transform, points=False, upscale_factor=4, blur_sigma=4.0, threshold_value=0.8),
while fire_areas.py:177-185 invokes it with the keyword arguments
method, upscale_factor, blur_sigma, threshold_value, tol.
A Python keyword call succeeds only when every keyword names a parameter
of the callee; otherwise it raises TypeError. -/

/-- Parameter names of fire_utils.detect_areas (fire_utils.py:142). -/
def detect_areas_kw_names : List String :=
  ["rgb", "transform", "points", "upscale_factor", "blur_sigma", "threshold_value"]

/-- Keyword names used at the call site fire_areas.py:177-185 (the two
positional arguments rgb and transform are passed positionally and bind the
first two parameters). -/
def fire_areas_call_kw_names : List String :=
  ["method", "upscale_factor", "blur_sigma", "threshold_value", "tol"]

/-- A Python keyword call binds successfully iff every supplied keyword is a
parameter name of the callee (no **kwargs catch-all is present in the source). -/
def pythonCallAccepted (params kwargs : List String) : Bool :=
  kwargs.all (fun k => params.contains k)

/-! ## Grid Orchestrator blank-timestamp classification
fire_areas.py:89-109: per timestamp, the variable all_false_this_time starts
at True and is reassigned by every sub-tile iteration: a sub-tile returning
detections assigns False, a sub-tile returning the string false_image
assigns True, a None result or an exception assigns False.  The final value
therefore reflects only the last sub-tile. -/

/-- Outcome of one sub-tile iteration of the orchestrator loop,
fire_areas.py:96-109.  A detections outcome carries the number of polygons
it contributed to polygons_this_time. -/
inductive TileResult where
  | detections (count : ℕ)
  | falseImage
  | noneResult
  | errorResult
deriving DecidableEq

/-- The final value of all_false_this_time after the sub-tile loop
(fire_areas.py:89-109): initialised to true, then reassigned (not combined)
by each sub-tile outcome in order. -/
def allFalseFlag (rs : List TileResult) : Bool :=
  rs.foldl (fun _flag r =>
    match r with
    | TileResult.detections _ => false
    | TileResult.falseImage => true
    | TileResult.noneResult => false
    | TileResult.errorResult => false) true

/-- Total number of polygons accumulated into polygons_this_time over the
sub-tile loop (fire_areas.py:91-101). -/
def polygonsThisTime (rs : List TileResult) : ℕ :=
  rs.foldl (fun n r =>
    match r with
    | TileResult.detections k => n + k
    | _ => n) 0

/-- Update of the consecutive_false counter at the end of a timestamp
iteration (fire_areas.py:124-128). -/
def consecutiveStep (c : ℕ) (blank : Bool) : ℕ :=
  if blank then c + 1 else 0

/-! ## Polygon Extractor minimum-area filter
fire_utils.py:243 keeps a polygon iff area_ha is at least min_area_ha; the
call site fire_areas.py:191 invokes
calculate_polygon_areas(contours, adjusted_transform) and forwards no
min_area_ha, so the default 1.0 of fire_utils.py:201 always applies, even
though fire_areas merges a user supplied min_area_ha into its params dict
(fire_areas.py:146-154, QGIS_WFMonitoring.py:208). -/

/-- Detection configuration recognised by fire_areas (fire_areas.py:146-152
plus the min_area_ha key supplied by QGIS_WFMonitoring.py:202-209). -/
structure DetectionParams where
  method : String
  upscale_factor : ℕ
  blur_sigma : ℚ
  threshold_value : ℚ
  tol : ℕ
  min_area_ha : ℚ
deriving DecidableEq

/-- Defaults of fire_areas.py:146-152; min_area_ha defaults to the
calculate_polygon_areas default 1.0 (fire_utils.py:201).  The threshold
0.8 is written mkRat 4 5 because rational division does not reduce in the
kernel. -/
def fire_areas_default_params : DetectionParams :=
  ⟨"hsv", 4, 3, mkRat 4 5, 40, 1⟩

/-- The retention test of calculate_polygon_areas (fire_utils.py:243):
a polygon is kept iff its area in hectares is at least min_area_ha. -/
def calculate_polygon_areas_keeps (min_area_ha area_ha : ℚ) : Bool :=
  decide (min_area_ha ≤ area_ha)

/-- Retention as performed by the pipeline: fire_areas.py:191 calls
calculate_polygon_areas without a min_area_ha argument, so the configured
value in the params dict is ignored and the default 1.0 is used. -/
def fire_areas_keeps (_p : DetectionParams) (area_ha : ℚ) : Bool :=
  calculate_polygon_areas_keeps 1 area_ha

/-- Configuration with min_area_ha set to 2 hectares, as the QGIS panel can
supply (QGIS_WFMonitoring.py:161-165). -/
def qgis_params_min2 : DetectionParams :=
  ⟨"hsv", 4, 3, mkRat 4 5, 40, 2⟩

/-! ## Persisted store column order
update_shapefile (fire_utils.py:386-395) materialises any missing column of
the canonical list as null and then selects exactly those columns in order.
The creating write (create_geodataframe, fire_utils.py:251-261, followed by
create_shapefile, fire_utils.py:263-279) performs no reordering: pandas
keeps columns in insertion order, giving geometry, time, area, fire,
time_area, acc_area, including the transient area column. -/

/-- Canonical column order of fire_utils.py:387. -/
def orderedCols : List String :=
  ["fire", "time", "time_area", "acc_area", "geometry"]

/-- Column list of the frame written by create_shapefile: geometry from the
GeoDataFrame constructor, then time and area (create_geodataframe), then
fire, time_area, acc_area (create_shapefile), in insertion order. -/
def createWriteCols : List String :=
  ["geometry", "time", "area", "fire", "time_area", "acc_area"]

/-- The loop of fire_utils.py:388-390: append each canonical column that is
missing (as a null column), preserving the existing columns. -/
def materializeMissing (cols : List String) : List String :=
  orderedCols.foldl (fun acc c => if c ∈ acc then acc else acc ++ [c]) cols

/-- Column selection of fire_utils.py:392: after materialising the missing
columns, the frame is reindexed to exactly orderedCols; selecting an absent
column would raise KeyError, modelled by the empty list. -/
def updateWriteCols (cols : List String) : List String :=
  if orderedCols.all (fun c => decide (c ∈ materializeMissing cols)) then orderedCols
  else []

/-! ## Timestamp Generator (fire_utils.py:12-21)
generate_datetimes starts at start, repeatedly appends
current.isoformat() plus the UTC designator, and advances current by
step_minutes, while current is at most end.  Instants are modelled as
integers (minutes from an epoch) and the isoformat rendering as an
arbitrary function into strings, supplied as a parameter.  When
step_minutes is not positive and start is at most end, the source loop
never terminates; the model guards on a positive step, which the claim
assumes. -/

/-- The numeric timestamp sequence of the fire_utils.py:16-20 loop. -/
def genTimes (start endT step : ℤ) : List ℤ :=
  if h : start ≤ endT ∧ 0 < step then start :: genTimes (start + step) endT step
  else []
termination_by (endT + 1 - start).toNat
decreasing_by omega

/-- The fire_utils.py:16-20 loop itself, producing rendered strings with
the Z suffix of line 19. -/
def generate_datetimes (iso : ℤ → String) (start endT step : ℤ) : List String :=
  if h : start ≤ endT ∧ 0 < step then
    (iso start ++ "Z") :: generate_datetimes iso (start + step) endT step
  else []
termination_by (endT + 1 - start).toNat
decreasing_by omega

/-! ## Decimal rounding and numpy closeness
round(x, 2) in Python and pandas Series.round(2) round half to even.
Floats are idealised as exact rationals. -/

/-- Round half to even at integer precision.  The fractional part is
q - floor q; the half comparisons are written multiplied by two so that the
kernel can evaluate the definition (rational division does not reduce). -/
def roundHalfEven (q : ℚ) : ℤ :=
  if 2 * (q - ⌊q⌋) < 1 then ⌊q⌋
  else if 1 < 2 * (q - ⌊q⌋) then ⌊q⌋ + 1
  else if ⌊q⌋ % 2 = 0 then ⌊q⌋ else ⌊q⌋ + 1

/-- round(x, 2): scale by 100, round half to even, scale back. -/
def round2 (q : ℚ) : ℚ :=
  mkRat (roundHalfEven (q * 100)) 100

/-- np.isclose with atol 0.01 and the numpy default rtol 1e-5, as invoked
at fire_utils.py:351: true iff the absolute difference is at most
atol + rtol * abs(b). -/
def npIsClose (a b : ℚ) : Bool :=
  decide (|a - b| ≤ mkRat 1 100 + mkRat 1 100000 * |b|)

/-! ## Fire Tracker (fire_utils.py:263-396)
The geometry library (shapely plus pyproj Geod) is an external
collaborator, abstracted as an interface: intersection test, union,
geodetic area in hectares (absolute area in square metres divided by ten
thousand), emptiness and validity.  A row of the persisted GeoDataFrame is
a typed FireRecord; timestamps are naturals, ordered as the ISO strings of
the source are. -/

structure GeoApi (G : Type) where
  intersects : G → G → Bool
  gUnion : G → G → G
  areaHa : G → ℚ
  geomEmpty : G → Bool
  geomValid : G → Bool

structure FireRecord (G : Type) where
  fire : ℕ
  time : ℕ
  time_area : ℚ
  acc_area : ℚ
  geometry : G
deriving DecidableEq

/-- create_shapefile (fire_utils.py:263-279): every polygon of the creating
batch receives fire identity 1, and time_area and acc_area are both the
rounded area of the polygon (Series.round(2) applied to the area column
computed by calculate_polygon_areas, which holds the geodetic area of the
polygon). -/
def create_shapefile {G : Type} (M : GeoApi G) (batch : List G) (t : ℕ) :
    List (FireRecord G) :=
  batch.map (fun g => ⟨1, t, round2 (M.areaHa g), round2 (M.areaHa g), g⟩)

/-- Largest existing fire identity (pandas max over the fire column,
fire_utils.py:319).  The orchestrator never updates an empty store; over an
empty list the model yields 0 where pandas would yield NaN. -/
def maxFire {G : Type} (recs : List (FireRecord G)) : ℕ :=
  recs.foldl (fun m r => max m r.fire) 0

/-- Distinct fire identities in order of first appearance (pandas unique,
fire_utils.py:332), computed on the store as read, before any appends. -/
def uniqueFires {G : Type} (recs : List (FireRecord G)) : List ℕ :=
  recs.foldl (fun acc r => if r.fire ∈ acc then acc else acc ++ [r.fire]) []

/-- sort_values on time followed by iloc[-1] (fire_utils.py:334): the last
record among those with maximal time, ties resolved towards the later row
(a stable sort kept by the model). -/
def lastRecord {G : Type} : List (FireRecord G) → Option (FireRecord G)
  | [] => none
  | r :: rs =>
    match lastRecord rs with
    | none => some r
    | some b => if b.time < r.time then some r else some b

/-- The scan of fire_utils.py:332-337: iterate the existing fire identities
in order, take the last record of each as its current geometry, and stop at
the first one whose current geometry the new polygon intersects.  In the
source the filtered history is never empty, because every scanned identity
occurs in the store; the none branch is unreachable and simply continues. -/
def findOverlap {G : Type} (M : GeoApi G) (store : List (FireRecord G)) (g : G) :
    List ℕ → Option (ℕ × FireRecord G)
  | [] => none
  | f :: fs =>
    match lastRecord (store.filter (fun r => r.fire == f)) with
    | none => findOverlap M store g fs
    | some r =>
      if M.intersects g r.geometry then some (f, r) else findOverlap M store g fs

/-- One iteration of the fire_utils.py:321-384 loop body, acting on the
pair of the accumulated store and the next fresh fire identity: skip empty
or invalid polygons; merge into the first intersecting fire with rounded
time_area and acc_area unless np.isclose judges the accumulated area
unchanged; otherwise append a new fire with the unrounded area in both
area fields. -/
def processPoly {G : Type} (M : GeoApi G) (fires : List ℕ) (t : ℕ)
    (st : List (FireRecord G) × ℕ) (g : G) : List (FireRecord G) × ℕ :=
  if M.geomEmpty g || !M.geomValid g then st
  else
    match findOverlap M st.1 g fires with
    | some (fid, last) =>
      let combined := M.gUnion last.geometry g
      let time_area_ha := round2 (M.areaHa g)
      let acc_area_ha := round2 (M.areaHa combined)
      if npIsClose last.acc_area acc_area_ha then st
      else (st.1 ++ [⟨fid, t, time_area_ha, acc_area_ha, combined⟩], st.2)
    | none =>
      (st.1 ++ [⟨st.2, t, M.areaHa g, M.areaHa g, g⟩], st.2 + 1)

/-- update_shapefile (fire_utils.py:282-396) at the record level: the scan
list of identities is computed once from the store as read, the next fresh
identity starts one above the maximum, and the loop body runs over the
batch in order.  The final column reordering of fire_utils.py:386-392 and
the fire-column fixup of fire_utils.py:311-316 are the identity on the
typed records, whose fire field always exists. -/
def update_shapefile {G : Type} (M : GeoApi G) (batch : List G) (t : ℕ)
    (store : List (FireRecord G)) : List (FireRecord G) :=
  (batch.foldl (processPoly M (uniqueFires store) t) (store, maxFire store + 1)).1

/-- The orchestrator persistence step for one timestamp
(fire_areas.py:111-122): nothing happens on an empty batch; otherwise the
store is created if absent (modelled: empty) and updated if present. -/
def applyBatch {G : Type} (M : GeoApi G) (store : List (FireRecord G))
    (b : ℕ × List G) : List (FireRecord G) :=
  if b.2.isEmpty then store
  else if store.isEmpty then create_shapefile M b.2 b.1
  else update_shapefile M b.2 b.1 store

/-- A run of the orchestrator persistence across timestamps, each carrying
its aggregated polygon batch. -/
def runBatches {G : Type} (M : GeoApi G) (batches : List (ℕ × List G)) :
    List (FireRecord G) :=
  batches.foldl (applyBatch M) []

/-- Whether the new polygon intersects the current geometry of fire f. -/
def lastIntersects {G : Type} (M : GeoApi G) (store : List (FireRecord G))
    (f : ℕ) (g : G) : Bool :=
  match lastRecord (store.filter (fun r => r.fire == f)) with
  | none => false
  | some r => M.intersects g r.geometry

/-- Whether fire f either does not intersect the new polygon or, merging
the polygon into it, np.isclose judges the accumulated area unchanged. -/
def lastAccClose {G : Type} (M : GeoApi G) (store : List (FireRecord G))
    (f : ℕ) (g : G) : Bool :=
  match lastRecord (store.filter (fun r => r.fire == f)) with
  | none => true
  | some r =>
    !M.intersects g r.geometry ||
      npIsClose r.acc_area (round2 (M.areaHa (M.gUnion r.geometry g)))

/-- Records appended by the new-fire path for a whole batch processed from
fresh identity nid on: consecutive identities, both area fields equal to
the unrounded polygon area. -/
def newFireRecs {G : Type} (M : GeoApi G) (t : ℕ) :
    ℕ → List G → List (FireRecord G)
  | _, [] => []
  | nid, g :: gs => ⟨nid, t, M.areaHa g, M.areaHa g, g⟩ :: newFireRecs M t (nid + 1) gs

/-- Concrete geometry model for witnesses and counterexamples: a polygon is
a finite set of unit cells, union is set union, the intersection test is
nonempty overlap, and the geodetic area is the number of cells. -/
def finsetGeo : GeoApi (Finset ℕ) :=
  ⟨fun a b => decide ((a ∩ b).Nonempty), fun a b => a ∪ b,
   fun s => (s.card : ℚ), fun s => decide (s = ∅), fun _ => true⟩

/-! ## Monotonicity of accumulated area (C4) -/

/-- Comparison carried along the records of one fire identity: appended in
non-decreasing timestamp order with non-decreasing accumulated area. -/
def recLE {G : Type} (a b : FireRecord G) : Prop :=
  a.time ≤ b.time ∧ a.acc_area ≤ b.acc_area

/-- Invariant of a reachable store, with T a bound on all record times:
every accumulated area exceeds the geodetic area of its stored geometry by
at most half a rounding unit, and per fire the records form a recLE chain. -/
def StoreInv {G : Type} (M : GeoApi G) (T : ℕ) (s : List (FireRecord G)) : Prop :=
  (∀ r ∈ s, r.acc_area ≤ M.areaHa r.geometry + 1/200) ∧
  (∀ r ∈ s, r.time ≤ T) ∧
  (∀ f : ℕ, List.Chain' recLE (s.filter (fun r => r.fire == f)))

/-- The first batch holding any polygon (the one that creates the store)
has at most one polygon. -/
def firstNonEmptyLE1 {G : Type} : List (ℕ × List G) → Bool
  | [] => true
  | b :: bs => if b.2.isEmpty then firstNonEmptyLE1 bs else decide (b.2.length ≤ 1)

/-- Invariant of the update loop state: the acc bound, the time bound, all
record identities below the fresh identity, all scanned identities below
the fresh identity, and the per-fire recLE chains. -/
def TrackInv {G : Type} (M : GeoApi G) (t : ℕ) (fires : List ℕ)
    (p : List (FireRecord G) × ℕ) : Prop :=
  (∀ r ∈ p.1, r.acc_area ≤ M.areaHa r.geometry + 1/200) ∧
  (∀ r ∈ p.1, r.time ≤ t) ∧
  (∀ r ∈ p.1, r.fire < p.2) ∧
  (∀ f ∈ fires, f < p.2) ∧
  (∀ f : ℕ, List.Chain' recLE (p.1.filter (fun r => r.fire == f)))

def exA : Finset ℕ := {0, 1, 2, 3, 4}

def exB : Finset ℕ := {10, 11}

def exC : Finset ℕ := {11, 12, 13}

/-! ## Grid Tiler (fire_utils.py:41-54)
split_bbox computes dx and dy once and appends, in a row-major double
loop, the tuples (x0, y0, x0 + dx, y0 + dy).  Floats are idealised as
exact rationals, so the shared edges match exactly. -/

structure BBoxQ where
  xmin : ℚ
  ymin : ℚ
  xmax : ℚ
  ymax : ℚ
deriving DecidableEq

/-- The loop body of fire_utils.py:49-53 at row i, column j. -/
def subBox (b : BBoxQ) (n_rows n_cols i j : ℕ) : BBoxQ :=
  ⟨b.xmin + j * ((b.xmax - b.xmin) / n_cols),
   b.ymin + i * ((b.ymax - b.ymin) / n_rows),
   b.xmin + j * ((b.xmax - b.xmin) / n_cols) + (b.xmax - b.xmin) / n_cols,
   b.ymin + i * ((b.ymax - b.ymin) / n_rows) + (b.ymax - b.ymin) / n_rows⟩

/-- split_bbox (fire_utils.py:41-54): i ranges over rows (outer loop),
j over columns (inner loop). -/
def split_bbox (b : BBoxQ) (n_rows n_cols : ℕ) : List BBoxQ :=
  (List.range n_rows).flatMap (fun i =>
    (List.range n_cols).map (fun j => subBox b n_rows n_cols i j))

/-- Closed-box membership of a point. -/
def pointIn (b : BBoxQ) (x y : ℚ) : Prop :=
  b.xmin ≤ x ∧ x ≤ b.xmax ∧ b.ymin ≤ y ∧ y ≤ b.ymax

/-- Open-box (interior) membership of a point. -/
def pointInOpen (b : BBoxQ) (x y : ℚ) : Prop :=
  b.xmin < x ∧ x < b.xmax ∧ b.ymin < y ∧ y < b.ymax

/-- C1: the claim says the Anomaly Detector accepts a method tag, upscale
factor, blur sigma, threshold and RGB tolerance, and that the orchestrator
call to the detector with all six parameters succeeds.  In the source the
call is rejected: fire_utils.detect_areas has no parameter named method and
none named tol, so the call at fire_areas.py:177-185 raises TypeError.
The offending keywords are exactly method and tol. -/
theorem c1_detect_call_rejected :
    pythonCallAccepted detect_areas_kw_names fire_areas_call_kw_names = false ∧
    fire_areas_call_kw_names.filter (fun k => !detect_areas_kw_names.contains k) =
      ["method", "tol"] := by
  decide

/-- C5: the claim says a timestamp is classified blank (incrementing the
consecutive-blank counter) only if every sub-tile yielded the blank
condition and none yielded polygons.  Counterexample in the code: with two
sub-tiles where the first yields one polygon and the second yields the
blank condition, the flag ends true (the last assignment wins), one polygon
was accumulated, and the counter is incremented from 0 to 1. -/
theorem c5_blank_flag_last_tile_wins :
    allFalseFlag [TileResult.detections 1, TileResult.falseImage] = true ∧
    polygonsThisTime [TileResult.detections 1, TileResult.falseImage] = 1 ∧
    consecutiveStep 0 (allFalseFlag [TileResult.detections 1, TileResult.falseImage]) = 1 := by
  decide

/-- C6: the claim says that with min_area_ha = m configured, every polygon
handed to the Fire Tracker has area at least m (not merely the default 1.0).
Counterexample in the code: with m = 2 configured, a polygon of 1.5 ha is
retained by the pipeline, although the configured filter would reject it,
because fire_areas.py:191 never forwards min_area_ha. -/
theorem c6_min_area_not_forwarded :
    fire_areas_keeps qgis_params_min2 (mkRat 3 2) = true ∧
    calculate_polygon_areas_keeps qgis_params_min2.min_area_ha (mkRat 3 2) = false := by
  decide

theorem mem_foldl_insertMissing (l : List String) :
    ∀ (acc : List String) (x : String), x ∈ acc →
      x ∈ l.foldl (fun a c => if c ∈ a then a else a ++ [c]) acc := by
  induction l with
  | nil => intro acc x hx; simpa using hx
  | cons c cs ih =>
    intro acc x hx
    simp only [List.foldl_cons]
    by_cases hc : c ∈ acc
    · simp only [hc, if_pos]; exact ih acc x hx
    · simp only [hc, if_neg, not_false_iff]
      exact ih (acc ++ [c]) x (List.mem_append_left _ hx)

theorem self_mem_foldl_insertMissing (l : List String) :
    ∀ (acc : List String) (x : String), x ∈ l →
      x ∈ l.foldl (fun a c => if c ∈ a then a else a ++ [c]) acc := by
  induction l with
  | nil => intro acc x hx; simp at hx
  | cons c cs ih =>
    intro acc x hx
    simp only [List.foldl_cons]
    rcases List.mem_cons.mp hx with h | h
    · subst h
      by_cases hc : x ∈ acc
      · simp only [hc, if_pos]
        exact mem_foldl_insertMissing cs acc x hc
      · simp only [hc, if_neg, not_false_iff]
        exact mem_foldl_insertMissing cs (acc ++ [x]) x
          (List.mem_append_right _ (List.mem_singleton.mpr rfl))
    · by_cases hc : c ∈ acc
      · simp only [hc, if_pos]; exact ih acc x h
      · simp only [hc, if_neg, not_false_iff]; exact ih (acc ++ [c]) x h

/-- C7 counterexample: the claim says every write of the store, including
the creating one, produces exactly the canonical columns in order.  The
creating write instead produces geometry, time, area, fire, time_area,
acc_area, so it differs from the canonical order and carries an extra
column. -/
theorem c7_create_columns_differ :
    createWriteCols ≠ orderedCols ∧ createWriteCols.contains "area" = true ∧
    orderedCols.contains "area" = false := by
  decide

/-- C7 amended: every update write reorders to exactly the canonical columns
fire, time, time_area, acc_area, geometry, materialising missing ones as
null first; only the creating write deviates, producing the insertion order
geometry, time, area, fire, time_area, acc_area with the transient area
column. -/
theorem c7_update_columns_canonical (cols : List String) :
    updateWriteCols cols = orderedCols ∧
    createWriteCols = ["geometry", "time", "area", "fire", "time_area", "acc_area"] := by
  refine ⟨?_, rfl⟩
  unfold updateWriteCols
  have hall : orderedCols.all (fun c => decide (c ∈ materializeMissing cols)) = true := by
    rw [List.all_eq_true]
    intro c hc
    simpa using self_mem_foldl_insertMissing orderedCols cols c hc
  rw [hall]
  simp

theorem genTimes_mem_le (start endT step : ℤ) :
    ∀ t ∈ genTimes start endT step, t ≤ endT := by
  intro t ht
  rw [genTimes] at ht
  split at ht
  case isTrue h =>
    rcases List.mem_cons.mp ht with rfl | ht'
    · exact h.1
    · exact genTimes_mem_le (start + step) endT step t ht'
  case isFalse _h => simp at ht
termination_by (endT + 1 - start).toNat
decreasing_by omega

theorem genTimes_mem_ge (start endT step : ℤ) :
    ∀ t ∈ genTimes start endT step, start ≤ t := by
  intro t ht
  rw [genTimes] at ht
  split at ht
  case isTrue h =>
    rcases List.mem_cons.mp ht with rfl | ht'
    · exact le_refl t
    · have := genTimes_mem_ge (start + step) endT step t ht'
      omega
  case isFalse _h => simp at ht
termination_by (endT + 1 - start).toNat
decreasing_by omega

theorem genTimes_chain (start endT step : ℤ) :
    List.Chain' (fun a b => b = a + step) (genTimes start endT step) := by
  rw [genTimes]
  split
  case isTrue h =>
    rw [List.chain'_cons']
    refine ⟨?_, genTimes_chain (start + step) endT step⟩
    intro y hy
    rw [genTimes] at hy
    split at hy
    · simp only [List.head?_cons, Option.mem_def, Option.some.injEq] at hy
      omega
    · simp at hy
  case isFalse _h => exact List.chain'_nil
termination_by (endT + 1 - start).toNat
decreasing_by omega

theorem genTimes_pairwise (start endT step : ℤ) :
    List.Pairwise (fun a b => a < b) (genTimes start endT step) := by
  rw [genTimes]
  split
  case isTrue h =>
    refine List.pairwise_cons.mpr ⟨?_, genTimes_pairwise (start + step) endT step⟩
    intro t ht
    have := genTimes_mem_ge (start + step) endT step t ht
    omega
  case isFalse _h => exact List.Pairwise.nil
termination_by (endT + 1 - start).toNat
decreasing_by omega

theorem generate_datetimes_eq_map (iso : ℤ → String) (start endT step : ℤ) :
    generate_datetimes iso start endT step =
      (genTimes start endT step).map (fun t => iso t ++ "Z") := by
  rw [generate_datetimes, genTimes]
  by_cases h : start ≤ endT ∧ 0 < step
  · rw [dif_pos h, dif_pos h, List.map_cons,
      generate_datetimes_eq_map iso (start + step) endT step]
  · rw [dif_neg h, dif_neg h]; rfl
termination_by (endT + 1 - start).toNat
decreasing_by omega

/-- C8: for start at most end and a positive step in minutes, the Timestamp
Generator produces a strictly increasing sequence whose first element is
start, whose elements are all at most end, whose consecutive elements
differ by exactly the step, and each rendered as the isoformat string with
a Z suffix appended. -/
theorem c8_timestamp_generator (iso : ℤ → String) (start endT step : ℤ)
    (h1 : start ≤ endT) (h2 : 0 < step) :
    (genTimes start endT step).head? = some start ∧
    (∀ t ∈ genTimes start endT step, t ≤ endT) ∧
    List.Chain' (fun a b => b = a + step) (genTimes start endT step) ∧
    List.Pairwise (fun a b => a < b) (genTimes start endT step) ∧
    generate_datetimes iso start endT step =
      (genTimes start endT step).map (fun t => iso t ++ "Z") := by
  refine ⟨?_, genTimes_mem_le start endT step, genTimes_chain start endT step,
    genTimes_pairwise start endT step, generate_datetimes_eq_map iso start endT step⟩
  rw [genTimes, dif_pos ⟨h1, h2⟩]
  rfl

/-- C8 witness: the theorem instantiated at start 0, end 25, step 10,
with a constant isoformat rendering. -/
theorem c8_timestamp_generator_witness :
    (genTimes 0 25 10).head? = some 0 ∧
    (∀ t ∈ genTimes 0 25 10, t ≤ 25) ∧
    List.Chain' (fun a b => b = a + 10) (genTimes 0 25 10) ∧
    List.Pairwise (fun a b => a < b) (genTimes 0 25 10) ∧
    generate_datetimes (fun _ => "t") 0 25 10 =
      (genTimes 0 25 10).map (fun t => (fun _ : ℤ => "t") t ++ "Z") :=
  c8_timestamp_generator (fun _ => "t") 0 25 10 (by decide) (by decide)

theorem floor_le_roundHalfEven (q : ℚ) : ⌊q⌋ ≤ roundHalfEven q := by
  unfold roundHalfEven
  split_ifs <;> omega

theorem roundHalfEven_le_floor_add_one (q : ℚ) : roundHalfEven q ≤ ⌊q⌋ + 1 := by
  unfold roundHalfEven
  split_ifs <;> omega

theorem roundHalfEven_le (q : ℚ) : (roundHalfEven q : ℚ) ≤ q + 1/2 := by
  have hf : (⌊q⌋ : ℚ) ≤ q := Int.floor_le q
  have hc : q < ⌊q⌋ + 1 := Int.lt_floor_add_one q
  unfold roundHalfEven
  split_ifs with h1 h2 h3 <;> push_cast <;> linarith

theorem le_roundHalfEven (q : ℚ) : q - 1/2 ≤ (roundHalfEven q : ℚ) := by
  have hf : (⌊q⌋ : ℚ) ≤ q := Int.floor_le q
  have hc : q < ⌊q⌋ + 1 := Int.lt_floor_add_one q
  unfold roundHalfEven
  split_ifs with h1 h2 h3 <;> push_cast <;> linarith

theorem roundHalfEven_mono {a b : ℚ} (hab : a ≤ b) :
    roundHalfEven a ≤ roundHalfEven b := by
  rcases lt_or_le ⌊a⌋ ⌊b⌋ with h | h
  · have h1 := roundHalfEven_le_floor_add_one a
    have h2 := floor_le_roundHalfEven b
    omega
  · have hfeq : ⌊a⌋ = ⌊b⌋ := le_antisymm (Int.floor_mono hab) h
    unfold roundHalfEven
    rw [hfeq]
    split_ifs <;> first | omega | (exfalso; linarith)

theorem round2_eq_div (q : ℚ) : round2 q = (roundHalfEven (q * 100) : ℚ) / 100 :=
  Rat.mkRat_eq_div _ _

theorem round2_le (q : ℚ) : round2 q ≤ q + 1/200 := by
  rw [round2_eq_div]
  have := roundHalfEven_le (q * 100)
  linarith

theorem le_round2 (q : ℚ) : q - 1/200 ≤ round2 q := by
  rw [round2_eq_div]
  have := le_roundHalfEven (q * 100)
  linarith

theorem round2_mono {a b : ℚ} (hab : a ≤ b) : round2 a ≤ round2 b := by
  rw [round2_eq_div, round2_eq_div]
  have h : roundHalfEven (a * 100) ≤ roundHalfEven (b * 100) :=
    roundHalfEven_mono (by linarith)
  have h' : (roundHalfEven (a * 100) : ℚ) ≤ (roundHalfEven (b * 100) : ℚ) := by
    exact_mod_cast h
  linarith

theorem npIsClose_of_abs_le {a b : ℚ} (h : |a - b| ≤ 1/100) :
    npIsClose a b = true := by
  unfold npIsClose
  rw [decide_eq_true_iff]
  have h1 : mkRat 1 100 = (1 : ℚ) / 100 := Rat.mkRat_eq_div 1 100
  have h2 : mkRat 1 100000 = (1 : ℚ) / 100000 := Rat.mkRat_eq_div 1 100000
  have hb : 0 ≤ |b| := abs_nonneg b
  rw [h1, h2]
  nlinarith

theorem abs_le_of_npIsClose {a b : ℚ} (h : npIsClose a b = true) :
    |a - b| ≤ 1/100 + |b| / 100000 := by
  unfold npIsClose at h
  rw [decide_eq_true_iff] at h
  have h1 : mkRat 1 100 = (1 : ℚ) / 100 := Rat.mkRat_eq_div 1 100
  have h2 : mkRat 1 100000 = (1 : ℚ) / 100000 := Rat.mkRat_eq_div 1 100000
  rw [h1, h2] at h
  linarith

/-! ## Basic Fire Tracker lemmas -/

theorem lastRecord_mem {G : Type} :
    ∀ (l : List (FireRecord G)) (r : FireRecord G), lastRecord l = some r → r ∈ l := by
  intro l
  induction l with
  | nil => intro r h; simp [lastRecord] at h
  | cons a as ih =>
    intro r h
    rw [lastRecord] at h
    split at h
    · simp only [Option.some.injEq] at h
      exact h ▸ List.mem_cons_self a as
    · split at h
      · simp only [Option.some.injEq] at h
        exact h ▸ List.mem_cons_self a as
      · simp only [Option.some.injEq] at h
        rename_i b hb _
        exact List.mem_cons_of_mem a (h ▸ ih b hb)

theorem findOverlap_eq_none_iff {G : Type} (M : GeoApi G) (store : List (FireRecord G))
    (g : G) (fires : List ℕ) :
    findOverlap M store g fires = none ↔
      ∀ f ∈ fires, lastIntersects M store f g = false := by
  induction fires with
  | nil => simp [findOverlap]
  | cons f fs ih =>
    constructor
    · intro h x hx
      rw [findOverlap] at h
      rcases List.mem_cons.mp hx with rfl | hx
      · rw [lastIntersects]
        split at h
        · rfl
        · split at h
          · exact absurd h (by simp)
          · rename_i hint; exact Bool.eq_false_iff.mpr hint
      · revert h
        split
        · intro h; exact ih.mp h x hx
        · split
          · intro h; exact absurd h (by simp)
          · intro h; exact ih.mp h x hx
    · intro h
      rw [findOverlap]
      split
      · exact ih.mpr (fun x hx => h x (List.mem_cons_of_mem _ hx))
      · rename_i r heq
        have hf := h f (List.mem_cons_self _ _)
        simp only [lastIntersects, heq] at hf
        rw [if_neg (by rw [hf]; exact Bool.false_ne_true)]
        exact ih.mpr (fun x hx => h x (List.mem_cons_of_mem _ hx))

theorem findOverlap_mem {G : Type} {M : GeoApi G} {store : List (FireRecord G)}
    {g : G} {fires : List ℕ} {f : ℕ} {r : FireRecord G}
    (h : findOverlap M store g fires = some (f, r)) :
    f ∈ fires ∧ lastRecord (store.filter (fun x => x.fire == f)) = some r ∧
      M.intersects g r.geometry = true := by
  induction fires with
  | nil => simp [findOverlap] at h
  | cons f0 fs ih =>
    rw [findOverlap] at h
    split at h
    · have := ih h
      exact ⟨List.mem_cons_of_mem _ this.1, this.2.1, this.2.2⟩
    · rename_i r0 heq
      split at h
      · rename_i hint
        simp only [Option.some.injEq, Prod.mk.injEq] at h
        obtain ⟨rfl, rfl⟩ := h
        exact ⟨List.mem_cons_self _ _, heq, hint⟩
      · have := ih h
        exact ⟨List.mem_cons_of_mem _ this.1, this.2.1, this.2.2⟩

theorem findOverlap_ne_none {G : Type} {M : GeoApi G} {store : List (FireRecord G)}
    {g : G} {fires : List ℕ}
    (h : ∃ f ∈ fires, lastIntersects M store f g = true) :
    findOverlap M store g fires ≠ none := by
  intro hnone
  obtain ⟨f, hf, hint⟩ := h
  have := (findOverlap_eq_none_iff M store g fires).mp hnone f hf
  rw [hint] at this
  exact Bool.true_eq_false.mp this

theorem foldl_max_init_le {G : Type} :
    ∀ (recs : List (FireRecord G)) (init : ℕ),
      init ≤ recs.foldl (fun m x => max m x.fire) init := by
  intro recs
  induction recs with
  | nil => intro init; exact le_refl _
  | cons a as ih =>
    intro init
    exact le_trans (le_max_left _ _) (ih (max init a.fire))

theorem fire_le_foldl_max {G : Type} :
    ∀ (recs : List (FireRecord G)) (init : ℕ) (r : FireRecord G), r ∈ recs →
      r.fire ≤ recs.foldl (fun m x => max m x.fire) init := by
  intro recs
  induction recs with
  | nil => intro init r h; simp at h
  | cons a as ih =>
    intro init r h
    rcases List.mem_cons.mp h with rfl | h
    · simp only [List.foldl_cons]
      exact le_trans (le_max_right init r.fire) (foldl_max_init_le as _)
    · exact ih (max init a.fire) r h

theorem fire_le_maxFire {G : Type} (recs : List (FireRecord G)) (r : FireRecord G)
    (h : r ∈ recs) : r.fire ≤ maxFire recs :=
  fire_le_foldl_max recs 0 r h

theorem mem_uniqueFires_exists {G : Type} (recs : List (FireRecord G)) (f : ℕ)
    (h : f ∈ uniqueFires recs) : ∃ r ∈ recs, r.fire = f := by
  have key : ∀ (l : List (FireRecord G)) (acc : List ℕ),
      f ∈ l.foldl (fun a r => if r.fire ∈ a then a else a ++ [r.fire]) acc →
        f ∈ acc ∨ ∃ r ∈ l, r.fire = f := by
    intro l
    induction l with
    | nil => intro acc h; exact Or.inl h
    | cons a as ih =>
      intro acc h
      simp only [List.foldl_cons] at h
      rcases ih _ h with h' | ⟨r, hr, hf⟩
      · by_cases hmem : a.fire ∈ acc
        · rw [if_pos hmem] at h'
          exact Or.inl h'
        · rw [if_neg hmem] at h'
          rcases List.mem_append.mp h' with h'' | h''
          · exact Or.inl h''
          · refine Or.inr ⟨a, List.mem_cons_self _ _, ?_⟩
            have : f = a.fire := by simpa using h''
            exact this.symm
      · exact Or.inr ⟨r, List.mem_cons_of_mem _ hr, hf⟩
  rcases key recs [] h with h' | h'
  · simp at h'
  · exact h'

theorem mem_uniqueFires_le_maxFire {G : Type} (recs : List (FireRecord G)) (f : ℕ)
    (h : f ∈ uniqueFires recs) : f ≤ maxFire recs := by
  obtain ⟨r, hr, rfl⟩ := mem_uniqueFires_exists recs f h
  exact fire_le_maxFire recs r hr

theorem filter_fire_append_high {G : Type} (store ext : List (FireRecord G)) (f : ℕ)
    (hf : f ≤ maxFire store) (hext : ∀ r ∈ ext, maxFire store < r.fire) :
    (store ++ ext).filter (fun r => r.fire == f) =
      store.filter (fun r => r.fire == f) := by
  rw [List.filter_append]
  have : ext.filter (fun r => r.fire == f) = [] := by
    rw [List.filter_eq_nil_iff]
    intro r hr
    have := hext r hr
    simp only [beq_iff_eq]
    omega
  rw [this, List.append_nil]

theorem lastIntersects_append_high {G : Type} (M : GeoApi G)
    (store ext : List (FireRecord G)) (f : ℕ) (g : G)
    (hf : f ≤ maxFire store) (hext : ∀ r ∈ ext, maxFire store < r.fire) :
    lastIntersects M (store ++ ext) f g = lastIntersects M store f g := by
  unfold lastIntersects
  rw [filter_fire_append_high store ext f hf hext]

/-- C3: if every polygon of the batch is valid and nonempty, intersects the
current geometry of at least one existing fire, and for every fire whose
current geometry it intersects the merged accumulated area is judged
unchanged by np.isclose (absolute tolerance 0.01 ha), then the update
appends no record at all: the store is returned unchanged.  This covers
re-feeding a batch whose polygons are already contained in the fires they
match, at any later timestamp. -/
theorem c3_noop_suppression {G : Type} (M : GeoApi G) (batch : List G) (t : ℕ)
    (store : List (FireRecord G))
    (hval : ∀ g ∈ batch, M.geomEmpty g = false ∧ M.geomValid g = true)
    (hint : ∀ g ∈ batch, ∃ f ∈ uniqueFires store, lastIntersects M store f g = true)
    (hclose : ∀ g ∈ batch, ∀ f ∈ uniqueFires store, lastAccClose M store f g = true) :
    update_shapefile M batch t store = store := by
  unfold update_shapefile
  have key : ∀ (bs : List G), (∀ g ∈ bs, g ∈ batch) → ∀ nid : ℕ,
      (bs.foldl (processPoly M (uniqueFires store) t) (store, nid)).1 = store := by
    intro bs
    induction bs with
    | nil => intro _ nid; rfl
    | cons g gs ih =>
      intro hsub nid
      have hg := hsub g (List.mem_cons_self _ _)
      have hstep : processPoly M (uniqueFires store) t (store, nid) g = (store, nid) := by
        rcases hfo : findOverlap M store g (uniqueFires store) with _ | ⟨fid, r⟩
        · exact absurd hfo (findOverlap_ne_none (hint g hg))
        · obtain ⟨hfmem, hlast, hits⟩ := findOverlap_mem hfo
          have hcl := hclose g hg fid hfmem
          simp only [lastAccClose, hlast, hits, Bool.not_true, Bool.false_or] at hcl
          simp only [processPoly, (hval g hg).1, (hval g hg).2, hfo, hcl,
            Bool.not_true, Bool.or_false, Bool.false_or, if_true, if_false]
          split <;> rfl
      simp only [List.foldl_cons, hstep]
      exact ih (fun x hx => hsub x (List.mem_cons_of_mem _ hx)) nid
  exact key batch (fun _ h => h) _

attribute [local semireducible] Rat.add Rat.sub Rat.mul Rat.inv in
/-- C3 witness: a store created from one polygon, fed the same single
polygon again at a later timestamp, is returned unchanged. -/
theorem c3_noop_suppression_witness :
    update_shapefile finsetGeo [({0, 1} : Finset ℕ)] 1
        (create_shapefile finsetGeo [({0, 1} : Finset ℕ)] 0) =
      create_shapefile finsetGeo [({0, 1} : Finset ℕ)] 0 :=
  c3_noop_suppression finsetGeo [({0, 1} : Finset ℕ)] 1
    (create_shapefile finsetGeo [({0, 1} : Finset ℕ)] 0)
    (by decide) (by decide) (by decide)

theorem c2_update_aux {G : Type} (M : GeoApi G) (t : ℕ) (store : List (FireRecord G)) :
    ∀ (batch : List G) (ext : List (FireRecord G)) (nid : ℕ),
      (∀ g ∈ batch, M.geomEmpty g = false ∧ M.geomValid g = true) →
      (∀ g ∈ batch, ∀ f ∈ uniqueFires store, lastIntersects M store f g = false) →
      (∀ r ∈ ext, maxFire store < r.fire) →
      maxFire store < nid →
      (batch.foldl (processPoly M (uniqueFires store) t) (store ++ ext, nid)).1 =
        store ++ ext ++ newFireRecs M t nid batch := by
  intro batch
  induction batch with
  | nil => intro ext nid _ _ _ _; simp [newFireRecs]
  | cons g gs ih =>
    intro ext nid hval hdisj hext hnid
    have hgmem : g ∈ g :: gs := List.mem_cons_self _ _
    have hfo : findOverlap M (store ++ ext) g (uniqueFires store) = none := by
      rw [findOverlap_eq_none_iff]
      intro f hf
      rw [lastIntersects_append_high M store ext f g
        (mem_uniqueFires_le_maxFire store f hf) hext]
      exact hdisj g hgmem f hf
    have hguard : (M.geomEmpty g || !M.geomValid g) = false := by
      rw [(hval g hgmem).1, (hval g hgmem).2]
      rfl
    have hstep : processPoly M (uniqueFires store) t (store ++ ext, nid) g =
        (store ++ ext ++ [⟨nid, t, M.areaHa g, M.areaHa g, g⟩], nid + 1) := by
      simp [processPoly, hguard, hfo]
    rw [List.foldl_cons, hstep]
    have key := ih (ext ++ [⟨nid, t, M.areaHa g, M.areaHa g, g⟩]) (nid + 1)
      (fun x hx => hval x (List.mem_cons_of_mem _ hx))
      (fun x hx => hdisj x (List.mem_cons_of_mem _ hx))
      (by
        intro r hr
        rcases List.mem_append.mp hr with h | h
        · exact hext r h
        · simp only [List.mem_singleton] at h
          subst h
          exact hnid)
      (by omega)
    calc (gs.foldl (processPoly M (uniqueFires store) t)
            (store ++ ext ++ [⟨nid, t, M.areaHa g, M.areaHa g, g⟩], nid + 1)).1
        = (gs.foldl (processPoly M (uniqueFires store) t)
            (store ++ (ext ++ [⟨nid, t, M.areaHa g, M.areaHa g, g⟩]), nid + 1)).1 := by
          rw [List.append_assoc]
      _ = store ++ (ext ++ [⟨nid, t, M.areaHa g, M.areaHa g, g⟩]) ++
            newFireRecs M t (nid + 1) gs := key
      _ = store ++ ext ++ newFireRecs M t nid (g :: gs) := by
          simp [newFireRecs, List.append_assoc]

/-- C2 counterexample: the claim says distinct polygons disjoint from all
existing fires receive distinct fire identities, including the polygons of
the very first batch that creates the store.  In the source the creating
write assigns fire identity 1 to every row (fire_utils.py:276), so two
disjoint polygons in the first batch share identity 1. -/
theorem c2_first_batch_shared_identity :
    (create_shapefile finsetGeo [({0} : Finset ℕ), {1}] 0).map (fun r => r.fire) =
      [1, 1] ∧
    finsetGeo.intersects {0} {1} = false := by
  decide

/-- C2 amended: in an update invocation, each batch polygon (valid,
nonempty) that intersects no existing fire identity is appended as a new
fire: identities are allocated consecutively starting at one above the
maximum existing identity (so distinct disjoint polygons receive distinct
identities), and each record carries time_area = acc_area = the polygon's
own unrounded geodetic area.  In the store-creating batch, by contrast,
every polygon receives identity 1 with both areas rounded, as the
counterexample shows. -/
theorem c2_new_fire_allocation_amended {G : Type} (M : GeoApi G) (batch : List G)
    (t : ℕ) (store : List (FireRecord G))
    (hval : ∀ g ∈ batch, M.geomEmpty g = false ∧ M.geomValid g = true)
    (hdisj : ∀ g ∈ batch, ∀ f ∈ uniqueFires store, lastIntersects M store f g = false) :
    update_shapefile M batch t store =
      store ++ newFireRecs M t (maxFire store + 1) batch := by
  unfold update_shapefile
  have key := c2_update_aux M t store batch [] (maxFire store + 1) hval hdisj
    (by intro r hr; simp at hr) (by omega)
  simpa using key

/-- C2 witness: a second batch with one polygon disjoint from the only
existing fire founds fire identity 2 with its own area in both fields. -/
theorem c2_new_fire_allocation_amended_witness :
    update_shapefile finsetGeo [({5, 6} : Finset ℕ)] 1
        (create_shapefile finsetGeo [({0, 1} : Finset ℕ)] 0) =
      create_shapefile finsetGeo [({0, 1} : Finset ℕ)] 0 ++
        newFireRecs finsetGeo 1
          (maxFire (create_shapefile finsetGeo [({0, 1} : Finset ℕ)] 0) + 1)
          [({5, 6} : Finset ℕ)] :=
  c2_new_fire_allocation_amended finsetGeo [({5, 6} : Finset ℕ)] 1
    (create_shapefile finsetGeo [({0, 1} : Finset ℕ)] 0) (by decide) (by decide)

theorem processPoly_timeLeAcc {G : Type} (M : GeoApi G)
    (hm : ∀ a b, M.areaHa b ≤ M.areaHa (M.gUnion a b))
    (fires : List ℕ) (t : ℕ) (p : List (FireRecord G) × ℕ) (g : G)
    (hp : ∀ r ∈ p.1, r.time_area ≤ r.acc_area) :
    ∀ r ∈ (processPoly M fires t p g).1, r.time_area ≤ r.acc_area := by
  intro r hr
  rw [processPoly] at hr
  split at hr
  · exact hp r hr
  · split at hr
    · rename_i fid last heq
      simp only [] at hr
      split at hr
      · exact hp r hr
      · rcases List.mem_append.mp hr with h | h
        · exact hp r h
        · simp only [List.mem_singleton] at h
          subst h
          exact round2_mono (hm last.geometry g)
    · rcases List.mem_append.mp hr with h | h
      · exact hp r h
      · simp only [List.mem_singleton] at h
        subst h
        exact le_refl _

theorem update_shapefile_timeLeAcc {G : Type} (M : GeoApi G)
    (hm : ∀ a b, M.areaHa b ≤ M.areaHa (M.gUnion a b))
    (batch : List G) (t : ℕ) (store : List (FireRecord G))
    (hstore : ∀ r ∈ store, r.time_area ≤ r.acc_area) :
    ∀ r ∈ update_shapefile M batch t store, r.time_area ≤ r.acc_area := by
  unfold update_shapefile
  have key : ∀ (bs : List G) (p : List (FireRecord G) × ℕ),
      (∀ r ∈ p.1, r.time_area ≤ r.acc_area) →
      ∀ r ∈ (bs.foldl (processPoly M (uniqueFires store) t) p).1,
        r.time_area ≤ r.acc_area := by
    intro bs
    induction bs with
    | nil => intro p hp; exact hp
    | cons g gs ih =>
      intro p hp
      rw [List.foldl_cons]
      exact ih _ (processPoly_timeLeAcc M hm _ t p g hp)
  exact key batch _ hstore

theorem create_shapefile_timeLeAcc {G : Type} (M : GeoApi G) (batch : List G) (t : ℕ) :
    ∀ r ∈ create_shapefile M batch t, r.time_area ≤ r.acc_area := by
  intro r hr
  unfold create_shapefile at hr
  obtain ⟨g, _, rfl⟩ := List.mem_map.mp hr
  exact le_refl _

/-- C10: every record the Fire Tracker writes, over any run of the
orchestrator persistence (store creation and updates in any order), has
time_area at most acc_area: the merge path unions the new polygon into the
matched geometry (so the rounded union area dominates the rounded polygon
area, given that geodetic area is monotone under union), and the creating
and new-fire paths set the two fields equal. -/
theorem c10_time_area_le_acc_area {G : Type} (M : GeoApi G)
    (hm : ∀ a b, M.areaHa b ≤ M.areaHa (M.gUnion a b))
    (batches : List (ℕ × List G)) :
    ∀ r ∈ runBatches M batches, r.time_area ≤ r.acc_area := by
  unfold runBatches
  have key : ∀ (bs : List (ℕ × List G)) (store : List (FireRecord G)),
      (∀ r ∈ store, r.time_area ≤ r.acc_area) →
      ∀ r ∈ bs.foldl (applyBatch M) store, r.time_area ≤ r.acc_area := by
    intro bs
    induction bs with
    | nil => intro store h; exact h
    | cons b rest ih =>
      intro store h
      rw [List.foldl_cons]
      refine ih _ ?_
      unfold applyBatch
      split
      · exact h
      · split
        · exact create_shapefile_timeLeAcc M b.2 b.1
        · exact update_shapefile_timeLeAcc M hm b.2 b.1 store h
  exact key batches [] (by intro r h; simp at h)

attribute [local semireducible] Rat.add Rat.sub Rat.mul Rat.inv in
/-- C10 witness: the theorem at a concrete one-batch run, evaluated at the
single record created by that batch. -/
theorem c10_time_area_le_acc_area_witness :
    (⟨1, 0, round2 (finsetGeo.areaHa ({0, 1} : Finset ℕ)),
        round2 (finsetGeo.areaHa ({0, 1} : Finset ℕ)),
        ({0, 1} : Finset ℕ)⟩ : FireRecord (Finset ℕ)).time_area ≤
      (⟨1, 0, round2 (finsetGeo.areaHa ({0, 1} : Finset ℕ)),
          round2 (finsetGeo.areaHa ({0, 1} : Finset ℕ)),
          ({0, 1} : Finset ℕ)⟩ : FireRecord (Finset ℕ)).acc_area :=
  c10_time_area_le_acc_area finsetGeo
    (fun a b => by
      show ((b.card : ℚ)) ≤ (((a ∪ b).card : ℚ))
      exact_mod_cast Finset.card_le_card Finset.subset_union_right)
    [(0, [({0, 1} : Finset ℕ)])]
    ⟨1, 0, round2 (finsetGeo.areaHa ({0, 1} : Finset ℕ)),
      round2 (finsetGeo.areaHa ({0, 1} : Finset ℕ)), ({0, 1} : Finset ℕ)⟩
    (by decide)

theorem chain_time_head_le_getLast {G : Type} :
    ∀ (l : List (FireRecord G)) (a b : FireRecord G),
      List.Chain' (fun x y => x.time ≤ y.time) (a :: l) →
      (a :: l).getLast? = some b → a.time ≤ b.time := by
  intro l
  induction l with
  | nil =>
    intro a b _ h
    simp only [List.getLast?_singleton, Option.some.injEq] at h
    subst h
    exact le_refl _
  | cons c cs ih =>
    intro a b hch hl
    rw [List.getLast?_cons_cons] at hl
    have h1 : a.time ≤ c.time := (List.chain'_cons.mp hch).1
    have h2 : c.time ≤ b.time := ih c b (List.chain'_cons.mp hch).2 hl
    omega

theorem lastRecord_eq_getLast {G : Type} :
    ∀ (l : List (FireRecord G)),
      List.Chain' (fun x y => x.time ≤ y.time) l → lastRecord l = l.getLast? := by
  intro l
  induction l with
  | nil => intro _; rfl
  | cons a as ih =>
    intro h
    cases as with
    | nil => simp [lastRecord]
    | cons c cs =>
      have htail : List.Chain' (fun x y => x.time ≤ y.time) (c :: cs) :=
        (List.chain'_cons.mp h).2
      have hlr := ih htail
      obtain ⟨b, hb⟩ : ∃ b, (c :: cs).getLast? = some b := by
        cases hgl : (c :: cs).getLast? with
        | none => simp at hgl
        | some b => exact ⟨b, rfl⟩
      have hab : a.time ≤ b.time := by
        refine chain_time_head_le_getLast (c :: cs) a b h ?_
        rw [List.getLast?_cons_cons]
        exact hb
      rw [lastRecord, hlr, hb]
      show (if b.time < a.time then some a else some b) = (a :: c :: cs).getLast?
      rw [if_neg (not_lt.mpr hab), List.getLast?_cons_cons, hb]

theorem chain'_append_singleton {G : Type} {l : List (FireRecord G)}
    {rec : FireRecord G} (hch : List.Chain' recLE l)
    (hlast : ∀ b, l.getLast? = some b → recLE b rec) :
    List.Chain' recLE (l ++ [rec]) := by
  rw [List.chain'_append]
  refine ⟨hch, List.chain'_singleton rec, ?_⟩
  intro x hx y hy
  simp only [List.head?_cons, Option.mem_def, Option.some.injEq] at hy
  subst hy
  exact hlast x (Option.mem_def.mp hx)

theorem filter_fire_append_single_eq {G : Type} (s : List (FireRecord G))
    (rec : FireRecord G) (f : ℕ) (hf : rec.fire = f) :
    (s ++ [rec]).filter (fun r => r.fire == f) =
      s.filter (fun r => r.fire == f) ++ [rec] := by
  rw [List.filter_append]
  congr 1
  simp [List.filter_singleton, hf]

theorem filter_fire_append_single_ne {G : Type} (s : List (FireRecord G))
    (rec : FireRecord G) (f : ℕ) (hf : rec.fire ≠ f) :
    (s ++ [rec]).filter (fun r => r.fire == f) =
      s.filter (fun r => r.fire == f) := by
  rw [List.filter_append]
  have : List.filter (fun r => r.fire == f) [rec] = [] := by
    simp [List.filter_singleton, hf]
  rw [this, List.append_nil]

theorem filter_fire_eq_nil_of_lt {G : Type} (s : List (FireRecord G)) (n : ℕ)
    (h : ∀ r ∈ s, r.fire < n) :
    s.filter (fun r => r.fire == n) = [] := by
  rw [List.filter_eq_nil_iff]
  intro r hr
  have := h r hr
  simp only [beq_iff_eq]
  omega

theorem processPoly_inv {G : Type} (M : GeoApi G)
    (hm : ∀ a b, M.areaHa a ≤ M.areaHa (M.gUnion a b))
    (fires : List ℕ) (t : ℕ) (p : List (FireRecord G) × ℕ) (g : G)
    (hp : TrackInv M t fires p) :
    TrackInv M t fires (processPoly M fires t p g) := by
  obtain ⟨hacc, htime, hfire, hfid, hch⟩ := hp
  rw [processPoly]
  split
  · exact ⟨hacc, htime, hfire, hfid, hch⟩
  · split
    · rename_i fo fid last heq
      simp only []
      split
      · exact ⟨hacc, htime, hfire, hfid, hch⟩
      · rename_i hnc
        obtain ⟨hfmem, hlastEq, hits⟩ := findOverlap_mem heq
        have hlmem : last ∈ p.1 :=
          (List.mem_filter.mp (lastRecord_mem _ last hlastEq)).1
        have harith : last.acc_area ≤ round2 (M.areaHa (M.gUnion last.geometry g)) := by
          by_contra hlt
          push_neg at hlt
          have h1 : round2 (M.areaHa last.geometry) ≤
              round2 (M.areaHa (M.gUnion last.geometry g)) := round2_mono (hm _ _)
          have h2 := le_round2 (M.areaHa last.geometry)
          have h3 := hacc last hlmem
          have habs : |last.acc_area - round2 (M.areaHa (M.gUnion last.geometry g))| ≤
              1/100 := by
            rw [abs_of_nonneg (by linarith)]
            linarith
          exact hnc (npIsClose_of_abs_le habs)
        refine ⟨?_, ?_, ?_, ?_, ?_⟩
        · intro r hr
          rcases List.mem_append.mp hr with h | h
          · exact hacc r h
          · simp only [List.mem_singleton] at h
            subst h
            exact round2_le _
        · intro r hr
          rcases List.mem_append.mp hr with h | h
          · exact htime r h
          · simp only [List.mem_singleton] at h
            subst h
            exact le_refl _
        · intro r hr
          rcases List.mem_append.mp hr with h | h
          · exact hfire r h
          · simp only [List.mem_singleton] at h
            subst h
            exact hfid fid hfmem
        · exact hfid
        · intro f
          by_cases hf : fid = f
          · subst hf
            rw [filter_fire_append_single_eq _ _ fid rfl]
            refine chain'_append_singleton (hch fid) ?_
            intro b hb
            have htch : List.Chain' (fun x y => x.time ≤ y.time)
                (p.1.filter (fun r => r.fire == fid)) :=
              (hch fid).imp (fun a b h => h.1)
            rw [lastRecord_eq_getLast _ htch, hb] at hlastEq
            simp only [Option.some.injEq] at hlastEq
            subst hlastEq
            exact ⟨htime b hlmem, harith⟩
          · rw [filter_fire_append_single_ne _ _ f (by simpa using hf)]
            exact hch f
    · refine ⟨?_, ?_, ?_, ?_, ?_⟩
      · intro r hr
        rcases List.mem_append.mp hr with h | h
        · exact hacc r h
        · simp only [List.mem_singleton] at h
          subst h
          show M.areaHa g ≤ M.areaHa g + 1/200
          norm_num
      · intro r hr
        rcases List.mem_append.mp hr with h | h
        · exact htime r h
        · simp only [List.mem_singleton] at h
          subst h
          exact le_refl _
      · intro r hr
        rcases List.mem_append.mp hr with h | h
        · have := hfire r h
          simp only []
          omega
        · simp only [List.mem_singleton] at h
          subst h
          simp only []
          omega
      · intro f hf
        have := hfid f hf
        simp only []
        omega
      · intro f
        by_cases hf : p.2 = f
        · subst hf
          rw [filter_fire_append_single_eq _ _ p.2 rfl,
            filter_fire_eq_nil_of_lt p.1 p.2 hfire]
          exact List.chain'_singleton _
        · rw [filter_fire_append_single_ne _ _ f (by simpa using hf)]
          exact hch f

theorem foldl_processPoly_inv {G : Type} (M : GeoApi G)
    (hm : ∀ a b, M.areaHa a ≤ M.areaHa (M.gUnion a b))
    (fires : List ℕ) (t : ℕ) :
    ∀ (batch : List G) (p : List (FireRecord G) × ℕ), TrackInv M t fires p →
      TrackInv M t fires (batch.foldl (processPoly M fires t) p) := by
  intro batch
  induction batch with
  | nil => intro p hp; exact hp
  | cons g gs ih =>
    intro p hp
    rw [List.foldl_cons]
    exact ih _ (processPoly_inv M hm fires t p g hp)

theorem StoreInv_mono {G : Type} (M : GeoApi G) {T T' : ℕ} {s : List (FireRecord G)}
    (h : StoreInv M T s) (hT : T ≤ T') : StoreInv M T' s :=
  ⟨h.1, fun r hr => le_trans (h.2.1 r hr) hT, h.2.2⟩

theorem update_shapefile_inv {G : Type} (M : GeoApi G)
    (hm : ∀ a b, M.areaHa a ≤ M.areaHa (M.gUnion a b))
    (batch : List G) (t T : ℕ) (store : List (FireRecord G))
    (h : StoreInv M T store) (hT : T ≤ t) :
    StoreInv M t (update_shapefile M batch t store) := by
  unfold update_shapefile
  have h0 : TrackInv M t (uniqueFires store) (store, maxFire store + 1) := by
    refine ⟨h.1, fun r hr => le_trans (h.2.1 r hr) hT, ?_, ?_, h.2.2⟩
    · intro r hr
      have := fire_le_maxFire store r hr
      simp only []
      omega
    · intro f hf
      have := mem_uniqueFires_le_maxFire store f hf
      simp only []
      omega
  have key := foldl_processPoly_inv M hm (uniqueFires store) t batch _ h0
  exact ⟨key.1, key.2.1, key.2.2.2.2⟩

theorem create_shapefile_inv {G : Type} (M : GeoApi G) (batch : List G) (t : ℕ)
    (hlen : batch.length ≤ 1) : StoreInv M t (create_shapefile M batch t) := by
  rcases batch with _ | ⟨g, _ | ⟨g', gs⟩⟩
  · refine ⟨?_, ?_, ?_⟩
    · intro r hr; simp [create_shapefile] at hr
    · intro r hr; simp [create_shapefile] at hr
    · intro f; simp [create_shapefile]
  · refine ⟨?_, ?_, ?_⟩
    · intro r hr
      simp only [create_shapefile, List.map_cons, List.map_nil,
        List.mem_singleton] at hr
      subst hr
      exact round2_le _
    · intro r hr
      simp only [create_shapefile, List.map_cons, List.map_nil,
        List.mem_singleton] at hr
      subst hr
      exact le_refl _
    · intro f
      simp only [create_shapefile, List.map_cons, List.map_nil,
        List.filter_cons, List.filter_nil]
      split
      · exact List.chain'_singleton _
      · exact List.chain'_nil
  · simp at hlen

theorem processPoly_prefix {G : Type} (M : GeoApi G) (fires : List ℕ) (t : ℕ)
    (p : List (FireRecord G) × ℕ) (g : G) :
    ∃ ext, (processPoly M fires t p g).1 = p.1 ++ ext := by
  rw [processPoly]
  split
  · exact ⟨[], (List.append_nil _).symm⟩
  · split
    · simp only []
      split
      · exact ⟨[], (List.append_nil _).symm⟩
      · exact ⟨_, rfl⟩
    · exact ⟨_, rfl⟩

theorem foldl_processPoly_prefix {G : Type} (M : GeoApi G) (fires : List ℕ) (t : ℕ) :
    ∀ (batch : List G) (p : List (FireRecord G) × ℕ),
      ∃ ext, (batch.foldl (processPoly M fires t) p).1 = p.1 ++ ext := by
  intro batch
  induction batch with
  | nil => intro p; exact ⟨[], (List.append_nil _).symm⟩
  | cons g gs ih =>
    intro p
    rw [List.foldl_cons]
    obtain ⟨e1, he1⟩ := processPoly_prefix M fires t p g
    obtain ⟨e2, he2⟩ := ih (processPoly M fires t p g)
    exact ⟨e1 ++ e2, by rw [he2, he1, List.append_assoc]⟩

theorem update_shapefile_ne_nil {G : Type} (M : GeoApi G) (batch : List G) (t : ℕ)
    (store : List (FireRecord G)) (h : store ≠ []) :
    update_shapefile M batch t store ≠ [] := by
  unfold update_shapefile
  obtain ⟨ext, hext⟩ :=
    foldl_processPoly_prefix M (uniqueFires store) t batch (store, maxFire store + 1)
  rw [hext]
  intro hcon
  rcases List.append_eq_nil.mp hcon with ⟨h1, _⟩
  exact h h1

theorem create_shapefile_ne_nil {G : Type} (M : GeoApi G) (batch : List G) (t : ℕ)
    (h : batch ≠ []) : create_shapefile M batch t ≠ [] := by
  unfold create_shapefile
  simpa using h

theorem runBatches_aux {G : Type} (M : GeoApi G)
    (hm : ∀ a b, M.areaHa a ≤ M.areaHa (M.gUnion a b)) :
    ∀ (batches : List (ℕ × List G)) (store : List (FireRecord G)) (T : ℕ),
      StoreInv M T store →
      (∀ b ∈ batches, T ≤ b.1) →
      List.Pairwise (fun a b => a.1 ≤ b.1) batches →
      (store = [] → firstNonEmptyLE1 batches = true) →
      ∃ T', StoreInv M T' (batches.foldl (applyBatch M) store) := by
  intro batches
  induction batches with
  | nil =>
    intro store T h _ _ _
    exact ⟨T, h⟩
  | cons b bs ih =>
    intro store T h hTb hpw hcr
    rw [List.foldl_cons]
    have hpw' := List.pairwise_cons.mp hpw
    have hTb1 : T ≤ b.1 := hTb b (List.mem_cons_self _ _)
    by_cases hbe : b.2.isEmpty = true
    · have happ : applyBatch M store b = store := by
        unfold applyBatch
        rw [if_pos hbe]
      rw [happ]
      refine ih store b.1 (StoreInv_mono M h hTb1) (fun b' hb' => hpw'.1 b' hb')
        hpw'.2 ?_
      intro hs
      have hfi := hcr hs
      rw [firstNonEmptyLE1, if_pos hbe] at hfi
      exact hfi
    · have hbne : b.2 ≠ [] := fun hnil => hbe (by rw [hnil]; rfl)
      by_cases hse : store.isEmpty = true
      · have hsnil : store = [] := by
          cases store with
          | nil => rfl
          | cons x xs => simp [List.isEmpty] at hse
        have happ : applyBatch M store b = create_shapefile M b.2 b.1 := by
          unfold applyBatch
          rw [if_neg hbe, if_pos hse]
        have hfi := hcr hsnil
        rw [firstNonEmptyLE1, if_neg hbe] at hfi
        have hlen : b.2.length ≤ 1 := of_decide_eq_true hfi
        rw [happ]
        have hne : create_shapefile M b.2 b.1 ≠ [] :=
          create_shapefile_ne_nil M b.2 b.1 hbne
        exact ih _ b.1 (create_shapefile_inv M b.2 b.1 hlen)
          (fun b' hb' => hpw'.1 b' hb') hpw'.2 (fun hs' => absurd hs' hne)
      · have hsne : store ≠ [] := fun hnil => hse (by rw [hnil]; rfl)
        have happ : applyBatch M store b = update_shapefile M b.2 b.1 store := by
          unfold applyBatch
          rw [if_neg hbe, if_neg hse]
        rw [happ]
        have hne : update_shapefile M b.2 b.1 store ≠ [] :=
          update_shapefile_ne_nil M b.2 b.1 store hsne
        exact ih _ b.1 (update_shapefile_inv M hm b.2 b.1 T store h hTb1)
          (fun b' hb' => hpw'.1 b' hb') hpw'.2 (fun hs' => absurd hs' hne)

attribute [local semireducible] Rat.add Rat.sub Rat.mul Rat.inv in
/-- C4 counterexample: the claim says acc_area is non-decreasing in
timestamp order for every fire identity.  In the source, the creating write
collapses a two-polygon first batch (areas 5 and 2) into the single
identity 1; a later polygon intersecting only the second geometry merges
against it, appending acc_area 4.  Identity 1 then carries acc_area values
5, 2, 4 at times 0, 0, 1: the time-0 record with 5 precedes the time-1
record with 4, so the sequence decreases across distinct timestamps. -/
theorem c4_acc_area_decreases :
    ((runBatches finsetGeo [(0, [exA, exB]), (1, [exC])]).filter
        (fun r => r.fire == 1)).map (fun r => (r.time, r.acc_area)) =
      [(0, 5), (0, 2), (1, 4)] ∧
    ¬ List.Chain' recLE ((runBatches finsetGeo [(0, [exA, exB]), (1, [exC])]).filter
        (fun r => r.fire == 1)) := by
  have hlist : (runBatches finsetGeo [(0, [exA, exB]), (1, [exC])]).filter
      (fun r => r.fire == 1) =
      [⟨1, 0, 5, 5, exA⟩, ⟨1, 0, 2, 2, exB⟩, ⟨1, 1, 3, 4, exB ∪ exC⟩] := by
    decide
  constructor
  · rw [hlist]
    decide
  · rw [hlist]
    intro hch
    have h12 := (List.chain'_cons.mp hch).1
    have hle : (5 : ℚ) ≤ 2 := h12.2
    norm_num at hle

/-- C4: the claim as stated fails (see the counterexample); amended by the
smallest repair the counterexample forces: provided the store-creating
batch contains at most one polygon, and batches arrive in non-decreasing
timestamp order, then for every fire identity the store lists that
identity's records in non-decreasing timestamp order with non-decreasing
acc_area, over any sequence of create and update invocations. -/
theorem c4_monotone_amended {G : Type} (M : GeoApi G)
    (hm : ∀ a b, M.areaHa a ≤ M.areaHa (M.gUnion a b))
    (batches : List (ℕ × List G))
    (htimes : List.Pairwise (fun a b => a.1 ≤ b.1) batches)
    (hcr : firstNonEmptyLE1 batches = true) :
    ∀ f : ℕ,
      List.Chain' recLE ((runBatches M batches).filter (fun r => r.fire == f)) := by
  have hinv0 : StoreInv M 0 ([] : List (FireRecord G)) := by
    refine ⟨?_, ?_, ?_⟩
    · intro r hr; simp at hr
    · intro r hr; simp at hr
    · intro f; simp
  obtain ⟨T', hinv⟩ := runBatches_aux M hm batches [] 0 hinv0
    (fun b _ => Nat.zero_le _) htimes (fun _ => hcr)
  exact hinv.2.2

/-- C4 witness: a single-polygon creating batch followed by an overlapping
growth batch; the records of fire identity 1 are chained. -/
theorem c4_monotone_amended_witness :
    List.Chain' recLE
      ((runBatches finsetGeo [(0, [({0, 1} : Finset ℕ)]), (1, [({1, 2} : Finset ℕ)])]).filter
        (fun r => r.fire == 1)) :=
  c4_monotone_amended finsetGeo
    (fun a b => by
      show ((a.card : ℚ)) ≤ (((a ∪ b).card : ℚ))
      exact_mod_cast Finset.card_le_card Finset.subset_union_left)
    [(0, [({0, 1} : Finset ℕ)]), (1, [({1, 2} : Finset ℕ)])]
    (by decide) (by decide) 1

theorem range_bind_map_length {α : Type} (f : ℕ → ℕ → α) (r c : ℕ) :
    ((List.range r).flatMap (fun i => (List.range c).map (f i))).length = r * c := by
  induction r with
  | zero => simp
  | succ n ih =>
    rw [List.range_succ, List.flatMap_append, List.length_append, ih]
    simp [Nat.succ_mul]

theorem range_bind_map_get {α : Type} (f : ℕ → ℕ → α) (r c : ℕ) :
    ∀ i j, i < r → j < c →
      ((List.range r).flatMap (fun i => (List.range c).map (f i))).get? (i * c + j) =
        some (f i j) := by
  induction r with
  | zero => intro i j hi _; exact absurd hi (Nat.not_lt_zero i)
  | succ n ih =>
    intro i j hi hj
    rw [List.range_succ, List.flatMap_append]
    rcases Nat.lt_or_ge i n with h | h
    · rw [List.get?_append]
      · exact ih i j h hj
      · rw [range_bind_map_length]
        calc i * c + j < i * c + c := by omega
          _ = (i + 1) * c := by ring
          _ ≤ n * c := Nat.mul_le_mul_right c h
    · have hin : i = n := by omega
      subst hin
      rw [List.get?_append_right]
      · rw [range_bind_map_length]
        have hidx : i * c + j - i * c = j := by omega
        rw [hidx]
        simp only [List.flatMap_cons, List.flatMap_nil, List.append_nil]
        rw [List.get?_map, List.get?_range hj]
        rfl
      · rw [range_bind_map_length]
        omega

theorem mem_split_bbox {b : BBoxQ} {r c : ℕ} {sb : BBoxQ} :
    sb ∈ split_bbox b r c ↔
      ∃ i, i < r ∧ ∃ j, j < c ∧ sb = subBox b r c i j := by
  unfold split_bbox
  simp only [List.mem_flatMap, List.mem_map, List.mem_range]
  constructor
  · rintro ⟨i, hi, j, hj, rfl⟩
    exact ⟨i, hi, j, hj, rfl⟩
  · rintro ⟨i, hi, j, hj, rfl⟩
    exact ⟨i, hi, j, hj, rfl⟩

theorem interval_index (lo hi x : ℚ) (n : ℕ) (hn : 1 ≤ n) (hlt : lo < hi)
    (hx1 : lo ≤ x) (hx2 : x ≤ hi) :
    ∃ j, j < n ∧ lo + j * ((hi - lo) / n) ≤ x ∧
      x ≤ lo + j * ((hi - lo) / n) + (hi - lo) / n := by
  have hn0 : (0 : ℚ) < n := by exact_mod_cast Nat.lt_of_lt_of_le Nat.zero_lt_one hn
  have hd : (0 : ℚ) < (hi - lo) / n := div_pos (by linarith) hn0
  have hne1 : hi - lo ≠ 0 := ne_of_gt (by linarith)
  have hne2 : (n : ℚ) ≠ 0 := ne_of_gt hn0
  have hnd : (n : ℚ) * ((hi - lo) / n) = hi - lo := by
    field_simp
  have htd : ((x - lo) / ((hi - lo) / n)) * ((hi - lo) / n) = x - lo := by
    rw [div_mul_cancel₀]
    exact ne_of_gt hd
  have ht0 : (0 : ℚ) ≤ (x - lo) / ((hi - lo) / n) :=
    div_nonneg (by linarith) hd.le
  have hfl0 : 0 ≤ ⌊(x - lo) / ((hi - lo) / n)⌋ := Int.floor_nonneg.mpr ht0
  have hfle : (⌊(x - lo) / ((hi - lo) / n)⌋ : ℚ) ≤ (x - lo) / ((hi - lo) / n) :=
    Int.floor_le _
  have hflt : (x - lo) / ((hi - lo) / n) < ⌊(x - lo) / ((hi - lo) / n)⌋ + 1 :=
    Int.lt_floor_add_one _
  rcases le_or_lt (n : ℤ) ⌊(x - lo) / ((hi - lo) / n)⌋ with hbig | hsmall
  · refine ⟨n - 1, by omega, ?_, ?_⟩
    · have hcast : ((n - 1 : ℕ) : ℚ) = (n : ℚ) - 1 := by
        push_cast [Nat.cast_sub hn]
        ring
      have h1 : ((n : ℚ) - 1) ≤ (x - lo) / ((hi - lo) / n) := by
        have hcast2 : ((n : ℤ) : ℚ) ≤ (⌊(x - lo) / ((hi - lo) / n)⌋ : ℚ) := by
          exact_mod_cast hbig
        push_cast at hcast2
        linarith
      have h2 := mul_le_mul_of_nonneg_right h1 hd.le
      rw [htd] at h2
      rw [hcast]
      linarith
    · have hcast : ((n - 1 : ℕ) : ℚ) = (n : ℚ) - 1 := by
        push_cast [Nat.cast_sub hn]
        ring
      rw [hcast]
      have : lo + ((n : ℚ) - 1) * ((hi - lo) / n) + (hi - lo) / n =
          lo + (n : ℚ) * ((hi - lo) / n) := by ring
      rw [this, hnd]
      linarith
  · refine ⟨⌊(x - lo) / ((hi - lo) / n)⌋.toNat, by omega, ?_, ?_⟩
    · have hcast : ((⌊(x - lo) / ((hi - lo) / n)⌋.toNat : ℕ) : ℚ) =
          (⌊(x - lo) / ((hi - lo) / n)⌋ : ℚ) := by
        have := Int.toNat_of_nonneg hfl0
        exact_mod_cast congrArg (fun z : ℤ => (z : ℚ)) this
      have h2 := mul_le_mul_of_nonneg_right hfle hd.le
      rw [htd] at h2
      rw [hcast]
      linarith
    · have hcast : ((⌊(x - lo) / ((hi - lo) / n)⌋.toNat : ℕ) : ℚ) =
          (⌊(x - lo) / ((hi - lo) / n)⌋ : ℚ) := by
        have := Int.toNat_of_nonneg hfl0
        exact_mod_cast congrArg (fun z : ℤ => (z : ℚ)) this
      have h2 := mul_le_mul_of_nonneg_right hflt.le hd.le
      rw [htd] at h2
      rw [hcast]
      linarith

theorem interval_disjoint (lo d : ℚ) (hd : 0 < d) (k k' : ℕ) (hkk : k < k') (x : ℚ)
    (h1 : x < lo + k * d + d) (h2 : lo + k' * d < x) : False := by
  have hcast : ((k : ℚ) + 1) ≤ (k' : ℚ) := by exact_mod_cast hkk
  have hm := mul_le_mul_of_nonneg_right hcast hd.le
  have hr : ((k : ℚ) + 1) * d = k * d + d := by ring
  linarith

theorem subBox_within (b : BBoxQ) (r c i j : ℕ) (hi : i < r) (hj : j < c)
    (hx : b.xmin < b.xmax) (hy : b.ymin < b.ymax) :
    ∀ x y, pointIn (subBox b r c i j) x y → pointIn b x y := by
  intro x y hp
  simp only [pointIn, subBox] at hp ⊢
  obtain ⟨h1, h2, h3, h4⟩ := hp
  have hc0 : (0 : ℚ) < c := by exact_mod_cast Nat.lt_of_le_of_lt (Nat.zero_le j) hj
  have hr0 : (0 : ℚ) < r := by exact_mod_cast Nat.lt_of_le_of_lt (Nat.zero_le i) hi
  have hdx : (0 : ℚ) < (b.xmax - b.xmin) / c := div_pos (by linarith) hc0
  have hdy : (0 : ℚ) < (b.ymax - b.ymin) / r := div_pos (by linarith) hr0
  have hjx : (0 : ℚ) ≤ j * ((b.xmax - b.xmin) / c) :=
    mul_nonneg (by exact_mod_cast Nat.zero_le j) hdx.le
  have hiy : (0 : ℚ) ≤ i * ((b.ymax - b.ymin) / r) :=
    mul_nonneg (by exact_mod_cast Nat.zero_le i) hdy.le
  have hcx : ((j : ℚ) + 1) ≤ (c : ℚ) := by exact_mod_cast hj
  have hcy : ((i : ℚ) + 1) ≤ (r : ℚ) := by exact_mod_cast hi
  have hmx := mul_le_mul_of_nonneg_right hcx hdx.le
  have hmy := mul_le_mul_of_nonneg_right hcy hdy.le
  have hcdx : (c : ℚ) * ((b.xmax - b.xmin) / c) = b.xmax - b.xmin := by
    field_simp
  have hrdy : (r : ℚ) * ((b.ymax - b.ymin) / r) = b.ymax - b.ymin := by
    field_simp
  have hrx : ((j : ℚ) + 1) * ((b.xmax - b.xmin) / c) =
      j * ((b.xmax - b.xmin) / c) + (b.xmax - b.xmin) / c := by ring
  have hry : ((i : ℚ) + 1) * ((b.ymax - b.ymin) / r) =
      i * ((b.ymax - b.ymin) / r) + (b.ymax - b.ymin) / r := by ring
  exact ⟨by linarith, by linarith, by linarith, by linarith⟩

theorem subBox_interior_disjoint (b : BBoxQ) (r c : ℕ)
    (hx : b.xmin < b.xmax) (hy : b.ymin < b.ymax)
    (i j i' j' : ℕ) (hi : i < r) (hj : j < c) (_hi' : i' < r) (hj' : j' < c)
    (hne : (i, j) ≠ (i', j')) :
    ∀ x y, pointInOpen (subBox b r c i j) x y →
      pointInOpen (subBox b r c i' j') x y → False := by
  intro x y hp hq
  simp only [pointInOpen, subBox] at hp hq
  obtain ⟨p1, p2, p3, p4⟩ := hp
  obtain ⟨q1, q2, q3, q4⟩ := hq
  have hc0 : (0 : ℚ) < c := by exact_mod_cast Nat.lt_of_le_of_lt (Nat.zero_le j) hj
  have hr0 : (0 : ℚ) < r := by exact_mod_cast Nat.lt_of_le_of_lt (Nat.zero_le i) hi
  have hdx : (0 : ℚ) < (b.xmax - b.xmin) / c := div_pos (by linarith) hc0
  have hdy : (0 : ℚ) < (b.ymax - b.ymin) / r := div_pos (by linarith) hr0
  by_cases hjj : j = j'
  · subst hjj
    have hii : i ≠ i' := fun h => hne (by rw [h])
    rcases Nat.lt_or_ge i i' with h | h
    · exact interval_disjoint b.ymin _ hdy i i' h y p4 q3
    · exact interval_disjoint b.ymin _ hdy i' i (by omega) y q4 p3
  · rcases Nat.lt_or_ge j j' with h | h
    · exact interval_disjoint b.xmin _ hdx j j' h x p2 q1
    · exact interval_disjoint b.xmin _ hdx j' j (by omega) x q2 p1

/-- C9: for a bounding box with positive extent and at least one row and
column, split_bbox returns exactly rows times cols sub-boxes, the sub-box
at row-major position i * cols + j is the loop-body box for (i, j), every
sub-box has the common size dx by dy, every sub-box lies within the
bounding box, every point of the bounding box lies in some sub-box (no
gaps), and the interiors of distinct sub-boxes are disjoint (no
overlaps). -/
theorem c9_split_bbox_partition (b : BBoxQ) (r c : ℕ)
    (hx : b.xmin < b.xmax) (hy : b.ymin < b.ymax) (hr : 1 ≤ r) (hc : 1 ≤ c) :
    (split_bbox b r c).length = r * c ∧
    (∀ i j, i < r → j < c →
      (split_bbox b r c).get? (i * c + j) = some (subBox b r c i j)) ∧
    (∀ sb ∈ split_bbox b r c,
      sb.xmax - sb.xmin = (b.xmax - b.xmin) / c ∧
      sb.ymax - sb.ymin = (b.ymax - b.ymin) / r) ∧
    (∀ sb ∈ split_bbox b r c, ∀ x y, pointIn sb x y → pointIn b x y) ∧
    (∀ x y, pointIn b x y → ∃ sb ∈ split_bbox b r c, pointIn sb x y) ∧
    (∀ i j i' j', i < r → j < c → i' < r → j' < c → (i, j) ≠ (i', j') →
      ∀ x y, pointInOpen (subBox b r c i j) x y →
        pointInOpen (subBox b r c i' j') x y → False) := by
  refine ⟨?_, ?_, ?_, ?_, ?_, ?_⟩
  · unfold split_bbox
    exact range_bind_map_length _ r c
  · intro i j hi hj
    unfold split_bbox
    exact range_bind_map_get _ r c i j hi hj
  · intro sb hsb
    obtain ⟨i, hi, j, hj, rfl⟩ := mem_split_bbox.mp hsb
    constructor
    · show b.xmin + j * ((b.xmax - b.xmin) / c) + (b.xmax - b.xmin) / c -
        (b.xmin + j * ((b.xmax - b.xmin) / c)) = (b.xmax - b.xmin) / c
      ring
    · show b.ymin + i * ((b.ymax - b.ymin) / r) + (b.ymax - b.ymin) / r -
        (b.ymin + i * ((b.ymax - b.ymin) / r)) = (b.ymax - b.ymin) / r
      ring
  · intro sb hsb x y hp
    obtain ⟨i, hi, j, hj, rfl⟩ := mem_split_bbox.mp hsb
    exact subBox_within b r c i j hi hj hx hy x y hp
  · intro x y hp
    obtain ⟨hx1, hx2, hy1, hy2⟩ := hp
    obtain ⟨j, hj, hjx1, hjx2⟩ := interval_index b.xmin b.xmax x c hc hx hx1 hx2
    obtain ⟨i, hi, hiy1, hiy2⟩ := interval_index b.ymin b.ymax y r hr hy hy1 hy2
    refine ⟨subBox b r c i j, mem_split_bbox.mpr ⟨i, hi, j, hj, rfl⟩, ?_⟩
    exact ⟨hjx1, hjx2, hiy1, hiy2⟩
  · intro i j i' j' hi hj hi' hj' hne
    exact subBox_interior_disjoint b r c hx hy i j i' j' hi hj hi' hj' hne

/-- C9 witness: the length component of the theorem instantiated at the
unit example box split into a two by two grid. -/
theorem c9_split_bbox_partition_witness :
    (split_bbox ⟨0, 0, 2, 2⟩ 2 2).length = 2 * 2 :=
  (c9_split_bbox_partition ⟨0, 0, 2, 2⟩ 2 2 (by norm_num) (by norm_num)
    (by norm_num) (by norm_num)).1
